import Mathlib

/-!
Verification of the catpath path-list assembler (src/catpath.cpp).

Strings are modelled as lists of characters.  The filesystem query
made by is_dir (a stat call, lines 313-321) is modelled as an opaque
deterministic predicate dE, and the HOME environment variable (read at
line 150) as an optional character list.  Exceptions thrown by the C++
code (std::string::at out_of_range, runtime_error from get_opts) are
modelled with Except String.
-/

/-- Configuration record, from struct PathArgs (lines 50-58 of
src/catpath.cpp).  The arg_vec member (the token vector) is kept as a
separate value in this development; the remaining members appear here
in declaration order. -/
structure PathArgs where
  sep : Char
  allow_dups : Bool
  force : Bool
  help : Bool
  expand : Bool
  deriving DecidableEq

/-- Message standing for the what() text of the std::out_of_range
exception thrown by std::string::at when its index is out of bounds.
The exact text is irrelevant; only the fact that an exception escapes
build_path matters. -/
def atErrMsg : String := "basic_string::at: out of range"

/-- Tokenizer, from parse_path (lines 279-306): repeatedly skip a run
of separators, then collect the characters up to the next separator or
end of string as one token and push it onto the supplied vector.  The
first list is the remaining input, the second the vector accumulated
so far (parse_path appends to its vec argument). -/
def parsePathInto (sep : Char) : List Char → List (List Char) → List (List Char)
  | [], vec => vec
  | c :: cs, vec =>
    if c = sep then
      parsePathInto sep cs vec
    else
      parsePathInto sep (cs.dropWhile (fun x => x ≠ sep))
        (vec ++ [c :: cs.takeWhile (fun x => x ≠ sep)])
termination_by s _ => s.length
decreasing_by
  · simp
  · exact Nat.lt_succ_of_le (List.dropWhile_sublist _).length_le

/-- parse_path called with a fresh empty vector. -/
def parsePath (sep : Char) (s : List Char) : List (List Char) :=
  parsePathInto sep s []

/-- parse_path including its NULL-pointer guard (line 284): a null
input appends nothing to the vector. -/
def parsePathOpt (sep : Char) (s : Option (List Char)) (vec : List (List Char)) :
    List (List Char) :=
  match s with
  | none => vec
  | some l => parsePathInto sep l vec

/-- Home expansion step, from lines 145-157 of build_path.  The C++
code evaluates curr_path.at(0) and, when that is a tilde, also
curr_path.at(1); std::string::at throws out_of_range on an empty token
and on the one-character token consisting of a bare tilde.  When the
token starts with the two characters tilde slash and HOME is set, the
tilde is erased and the home string inserted at the front; when HOME
is unset the token is left unchanged. -/
def expandTok (home : Option (List Char)) : List Char → Except String (List Char)
  | [] => .error atErrMsg
  | [c] => if c = '~' then .error atErrMsg else .ok [c]
  | c :: c2 :: cs =>
    if c = '~' then
      if c2 = '/' then
        match home with
        | some h => .ok (h ++ c2 :: cs)
        | none => .ok (c :: c2 :: cs)
      else .ok (c :: c2 :: cs)
    else .ok (c :: c2 :: cs)

/-- The expansion applied to one token by build_path: the at calls are
reached only when path_args.expand is set (line 145). -/
def expOf (a : PathArgs) (home : Option (List Char)) (tok : List Char) :
    Except String (List Char) :=
  if a.expand = true then expandTok home tok else .ok tok

/-- Output append step, from lines 183-186 of build_path: a separator
is written before the token exactly when the output is non-empty. -/
def appendTok (sep : Char) (path tok : List Char) : List Char :=
  if path = [] then tok else path ++ sep :: tok

/-- The loop of build_path (lines 142-189), carrying the token list
still to process, the dir_set of already-included tokens (as a list
used only for membership), and the output string built so far.  Per
token: optional home expansion; when force is off, an existence check
on tokens whose post-expansion value starts with a slash (an empty
value makes curr_path.at(0) throw); when allow_dups is off, a skip of
tokens already in dir_set and an insertion of kept tokens; finally the
separator-aware append. -/
def buildPathAux (a : PathArgs) (home : Option (List Char)) (dE : List Char → Bool) :
    List (List Char) → List (List Char) → List Char → Except String (List Char)
  | [], _, path => .ok path
  | tok :: rest, seen, path =>
    match expOf a home tok with
    | .error e => .error e
    | .ok curr =>
      if a.force = false ∧ curr = [] then .error atErrMsg
      else if a.force = false ∧ curr.head? = some '/' ∧ dE curr = false then
        buildPathAux a home dE rest seen path
      else if a.allow_dups = false ∧ curr ∈ seen then
        buildPathAux a home dE rest seen path
      else
        buildPathAux a home dE rest
          (if a.allow_dups = false then curr :: seen else seen)
          (appendTok a.sep path curr)

/-- build_path (lines 130-190): the loop started with an empty dir_set
and a cleared output string. -/
def buildPath (a : PathArgs) (home : Option (List Char)) (dE : List Char → Bool)
    (toks : List (List Char)) : Except String (List Char) :=
  buildPathAux a home dE toks [] []

/-- Proof companion to buildPathAux returning the list of tokens that
build_path appends to the output, in order, instead of the joined
string.  Same branch structure as buildPathAux. -/
def buildToks (a : PathArgs) (home : Option (List Char)) (dE : List Char → Bool) :
    List (List Char) → List (List Char) → Except String (List (List Char))
  | [], _ => .ok []
  | tok :: rest, seen =>
    match expOf a home tok with
    | .error e => .error e
    | .ok curr =>
      if a.force = false ∧ curr = [] then .error atErrMsg
      else if a.force = false ∧ curr.head? = some '/' ∧ dE curr = false then
        buildToks a home dE rest seen
      else if a.allow_dups = false ∧ curr ∈ seen then
        buildToks a home dE rest seen
      else
        match buildToks a home dE rest
            (if a.allow_dups = false then curr :: seen else seen) with
        | .error e => .error e
        | .ok ks => .ok (curr :: ks)

/-- Joining a token list with single separators, the shape build_path
gives its output. -/
def joinSep (sep : Char) : List (List Char) → List Char
  | [] => []
  | [t] => t
  | t :: t2 :: ts => t ++ sep :: joinSep sep (t2 :: ts)

/-- The fold build_path actually performs on the kept tokens. -/
def sepFold (sep : Char) (ks : List (List Char)) : List Char :=
  ks.foldl (appendTok sep) []

/-- The token vector main builds (lines 89-94): each positional
argument is dissected by parse_path, appending to one shared vector. -/
def toksOf (sep : Char) (args : List (List Char)) : List (List Char) :=
  args.foldl (fun vec s => parsePathInto sep s vec) []

/-- Pointwise expansion of a whole token list; used to state which
post-expansion values exist for a token sequence. -/
def expAll (a : PathArgs) (home : Option (List Char)) :
    List (List Char) → Except String (List (List Char))
  | [] => .ok []
  | tok :: rest =>
    match expOf a home tok with
    | .error e => .error e
    | .ok c =>
      match expAll a home rest with
      | .error e => .error e
      | .ok cs => .ok (c :: cs)

/-- Tests whether a character list starts with tilde slash, the prefix
that triggers home expansion. -/
def startsTildeSlash : List Char → Bool
  | '~' :: '/' :: _ => true
  | _ => false

/-- First-occurrence-wins deduplication over a list of values, given
the set of values already taken: a value is kept exactly when it has
not occurred before.  This is the reference dedup the spec prescribes;
C4 proves build_path computes exactly this. -/
def keepFirstDedup : List (List Char) → List (List Char) → List (List Char)
  | [], _ => []
  | c :: cs, seen =>
    if c ∈ seen then keepFirstDedup cs seen
    else c :: keepFirstDedup cs (c :: seen)

/-- The existence policy applied to one post-expansion value: a value
is filtered by the directory check exactly when force is off and the
value starts with a slash (lines 159-170). -/
def survives (a : PathArgs) (dE : List Char → Bool) (c : List Char) : Bool :=
  if a.force = false ∧ c.head? = some '/' then dE c else true

/-- One result of the getopt loop in get_opts (lines 217-272): the
option characters d, f, h, x; s with the text of its argument; colon
(missing required argument, carrying optopt); and question mark
(invalid option, carrying optopt). -/
inductive OptEvent where
  | d | f | h | x
  | s (arg : List Char)
  | missingArg (c : Char)
  | invalid (c : Char)
  deriving DecidableEq

/-- Defaults applied at the top of get_opts (lines 199-203), with
DEFAULT_SEP = colon (line 66). -/
def defaultArgs : PathArgs := ⟨':', false, false, false, false⟩

/-- One iteration of the switch in get_opts (lines 219-271).  The
state is the PathArgs being filled in together with the sep_found
flag.  The s case rejects an empty argument, then a multi-character
argument, then a conflict with a previously chosen separator. -/
def optStep (st : PathArgs × Bool) : OptEvent → Except String (PathArgs × Bool)
  | .d => .ok (⟨st.1.sep, true, st.1.force, st.1.help, st.1.expand⟩, st.2)
  | .f => .ok (⟨st.1.sep, st.1.allow_dups, true, st.1.help, st.1.expand⟩, st.2)
  | .h => .ok (⟨st.1.sep, st.1.allow_dups, st.1.force, true, st.1.expand⟩, st.2)
  | .x => .ok (⟨st.1.sep, st.1.allow_dups, st.1.force, st.1.help, true⟩, st.2)
  | .s arg =>
    match arg with
    | [] => .error "Specified separator is an empty string"
    | [c] =>
      if st.2 = true ∧ c ≠ st.1.sep then
        .error "Conflicting specifications for separator character"
      else
        .ok (⟨c, st.1.allow_dups, st.1.force, st.1.help, st.1.expand⟩, true)
    | _ :: _ :: _ => .error "Specified separator consists of multiple characters"
  | .missingArg c => .error ("Required argument missing on -" ++ String.mk [c] ++ " option")
  | .invalid c => .error ("Invalid option -" ++ String.mk [c] ++ " on command line")

/-- The option loop of get_opts over the sequence of getopt results. -/
def getOptsAux : PathArgs × Bool → List OptEvent → Except String (PathArgs × Bool)
  | st, [] => .ok st
  | st, ev :: rest =>
    match optStep st ev with
    | .error e => .error e
    | .ok st2 => getOptsAux st2 rest

/-- get_opts (lines 195-273): defaults, then the option loop; the
sep_found flag is local and dropped from the result. -/
def getOpts (evs : List OptEvent) : Except String PathArgs :=
  match getOptsAux (defaultArgs, false) evs with
  | .error e => .error e
  | .ok st => .ok st.1

/-- Help text written by show_help (lines 323-339), with the program
name spliced in where show_help prints it. -/
def showHelp (name : List Char) : List Char :=
  ("Usaage: ").data ++ name ++
  (" [OPTION...] PATH...\n\n" ++
   "Concatenate directory paths into a list.  Each PATH is a list\n" ++
   "of one or more directory paths, separated by a designated\n" ++
   "separator character (see -s option).\n\n" ++
   "  -d  allow duplicate paths\n" ++
   "  -f  include a path even if the directory doesn\x27t exist\n" ++
   "  -h  display this help text\n" ++
   "  -s  specify a character used to separate paths\n" ++
   "      (defaults to \x27:\x27)\n" ++
   "  -x  replace tildes (\x27~\x27) with the user\x27s home directory\n\n" ++
   "Report ").data ++ name ++ (" bugs to mck9@swbell.net\n").data

/-- Observable outcome of one run: the process exit code and what was
written to standard output. -/
structure MainResult where
  exitCode : Nat
  stdout : List Char
  deriving DecidableEq

/-- main (lines 68-122): get_opts first — any error there is caught,
printed to stderr, and turns into exit code 1 with nothing on stdout;
on success, the help flag short-circuits to show_help and exit 0; else
the positional arguments are tokenized, build_path runs, and on
success the string plus a newline goes to stdout with exit 0.  An
exception escaping build_path is caught the same way as a get_opts
error. -/
def mainRun (name : List Char) (evs : List OptEvent) (posArgs : List (List Char))
    (home : Option (List Char)) (dE : List Char → Bool) : MainResult :=
  match getOpts evs with
  | .error _ => ⟨1, []⟩
  | .ok pa =>
    if pa.help = true then ⟨0, showHelp name⟩
    else
      match buildPath pa home dE (toksOf pa.sep posArgs) with
      | .error _ => ⟨1, []⟩
      | .ok path => ⟨0, path ++ ['\n']⟩

instance {ε α : Type} [DecidableEq ε] [DecidableEq α] : DecidableEq (Except ε α) :=
  fun a b =>
    match a, b with
    | .error e, .error f =>
      if h : e = f then isTrue (by rw [h])
      else isFalse (fun c => h (by injection c))
    | .ok x, .ok y =>
      if h : x = y then isTrue (by rw [h])
      else isFalse (fun c => h (by injection c))
    | .error _, .ok _ => isFalse (fun c => by injection c)
    | .ok _, .error _ => isFalse (fun c => by injection c)

theorem ppInto_nil (sep : Char) (vec : List (List Char)) :
    parsePathInto sep [] vec = vec := by
  rw [parsePathInto]

theorem ppInto_cons_sep (sep : Char) (cs : List Char) (vec : List (List Char)) :
    parsePathInto sep (sep :: cs) vec = parsePathInto sep cs vec := by
  rw [parsePathInto]
  simp

theorem ppInto_cons_ne (sep c : Char) (cs : List Char) (vec : List (List Char))
    (h : c ≠ sep) :
    parsePathInto sep (c :: cs) vec =
      parsePathInto sep (cs.dropWhile (fun x => x ≠ sep))
        (vec ++ [c :: cs.takeWhile (fun x => x ≠ sep)]) := by
  rw [parsePathInto]
  simp [h]

theorem ppInto_append_bounded (sep : Char) :
    ∀ (n : Nat) (s : List Char) (vec : List (List Char)), s.length ≤ n →
      parsePathInto sep s vec = vec ++ parsePath sep s := by
  intro n
  induction n with
  | zero =>
    intro s vec hs
    have hnil : s = [] := List.length_eq_zero.mp (Nat.le_zero.mp hs)
    subst hnil
    simp [parsePath, ppInto_nil]
  | succ n ih =>
    intro s vec hs
    match s with
    | [] => simp [parsePath, ppInto_nil]
    | c :: cs =>
      have hcs : cs.length ≤ n := Nat.lt_succ_iff.mp hs
      by_cases hc : c = sep
      · subst hc
        rw [parsePath, ppInto_cons_sep, ppInto_cons_sep]
        exact ih cs vec hcs
      · have hdrop : (cs.dropWhile (fun x => x ≠ sep)).length ≤ n :=
          le_trans (List.dropWhile_sublist _).length_le hcs
        rw [parsePath, ppInto_cons_ne sep c cs vec hc, ppInto_cons_ne sep c cs [] hc]
        rw [ih _ _ hdrop, ih _ (([] : List (List Char)) ++ _) hdrop]
        simp

/-- parse_path only appends: the result is the supplied vector
followed by the tokens of the input. -/
theorem ppInto_append (sep : Char) (s : List Char) (vec : List (List Char)) :
    parsePathInto sep s vec = vec ++ parsePath sep s :=
  ppInto_append_bounded sep s.length s vec le_rfl

/-- Every token produced by parse_path is non-empty and free of the
separator character. -/
theorem parsePath_tokens (sep : Char) :
    ∀ (n : Nat) (s : List Char), s.length ≤ n →
      ∀ t ∈ parsePath sep s, t ≠ [] ∧ sep ∉ t := by
  intro n
  induction n with
  | zero =>
    intro s hs
    have hnil : s = [] := List.length_eq_zero.mp (Nat.le_zero.mp hs)
    subst hnil
    simp [parsePath, ppInto_nil]
  | succ n ih =>
    intro s hs t ht
    match s with
    | [] => simp [parsePath, ppInto_nil] at ht
    | c :: cs =>
      have hcs : cs.length ≤ n := Nat.lt_succ_iff.mp hs
      by_cases hc : c = sep
      · subst hc
        rw [parsePath, ppInto_cons_sep] at ht
        exact ih cs hcs t ht
      · rw [parsePath, ppInto_cons_ne sep c cs [] hc, ppInto_append] at ht
        simp only [List.nil_append, List.mem_append, List.mem_singleton] at ht
        rcases ht with h1 | h2
        · subst h1
          refine ⟨by simp, ?_⟩
          intro hmem
          rcases List.mem_cons.mp hmem with h | h
          · exact hc h.symm
          · have := List.mem_takeWhile_imp h
            simp at this
        · have hdrop : (cs.dropWhile (fun x => x ≠ sep)).length ≤ n :=
            le_trans (List.dropWhile_sublist _).length_le hcs
          exact ih _ hdrop t h2

theorem tw_all {sep : Char} {l : List Char} (h : sep ∉ l) :
    l.takeWhile (fun x => x ≠ sep) = l := by
  induction l with
  | nil => rfl
  | cons a l ih =>
    have ha : a ≠ sep := fun e => h (e ▸ List.mem_cons_self a l)
    simp only [List.takeWhile_cons]
    rw [if_pos (decide_eq_true ha), ih (fun m => h (List.mem_cons_of_mem _ m))]

theorem dw_all {sep : Char} {l : List Char} (h : sep ∉ l) :
    l.dropWhile (fun x => x ≠ sep) = [] := by
  induction l with
  | nil => rfl
  | cons a l ih =>
    have ha : a ≠ sep := fun e => h (e ▸ List.mem_cons_self a l)
    simp only [List.dropWhile_cons]
    rw [if_pos (decide_eq_true ha), ih (fun m => h (List.mem_cons_of_mem _ m))]

theorem tw_app {sep : Char} {l r : List Char} (h : sep ∉ l) :
    (l ++ sep :: r).takeWhile (fun x => x ≠ sep) = l := by
  induction l with
  | nil =>
    simp only [List.nil_append, List.takeWhile_cons]
    rw [if_neg (by simp)]
  | cons a l ih =>
    have ha : a ≠ sep := fun e => h (e ▸ List.mem_cons_self a l)
    simp only [List.cons_append, List.takeWhile_cons]
    rw [if_pos (decide_eq_true ha), ih (fun m => h (List.mem_cons_of_mem _ m))]

theorem dw_app {sep : Char} {l r : List Char} (h : sep ∉ l) :
    (l ++ sep :: r).dropWhile (fun x => x ≠ sep) = sep :: r := by
  induction l with
  | nil =>
    simp only [List.nil_append, List.dropWhile_cons]
    rw [if_neg (by simp)]
  | cons a l ih =>
    have ha : a ≠ sep := fun e => h (e ▸ List.mem_cons_self a l)
    simp only [List.cons_append, List.dropWhile_cons]
    rw [if_pos (decide_eq_true ha), ih (fun m => h (List.mem_cons_of_mem _ m))]

/-- Parsing a single separator-free non-empty token gives back exactly
that token. -/
theorem parsePath_single {sep c : Char} {cs : List Char} (hc : c ≠ sep)
    (hcs : sep ∉ cs) : parsePath sep (c :: cs) = [c :: cs] := by
  rw [parsePath, ppInto_cons_ne sep c cs [] hc, tw_all hcs, dw_all hcs, ppInto_nil]
  simp

/-- Parsing a token followed by a separator and more input yields the
token and then the parse of the remainder. -/
theorem parsePath_cons_token {sep c : Char} {cs r : List Char} (hc : c ≠ sep)
    (hcs : sep ∉ cs) :
    parsePath sep (c :: (cs ++ sep :: r)) = (c :: cs) :: parsePath sep r := by
  rw [parsePath, ppInto_cons_ne sep c (cs ++ sep :: r) [] hc, tw_app hcs, dw_app hcs,
    ppInto_cons_sep, ppInto_append]
  simp

/-- Splitting a separator-joined list of non-empty separator-free
tokens recovers exactly those tokens. -/
theorem parsePath_joinSep {sep : Char} :
    ∀ ts : List (List Char), (∀ t ∈ ts, t ≠ [] ∧ sep ∉ t) →
      parsePath sep (joinSep sep ts) = ts := by
  intro ts
  induction ts with
  | nil => intro _; simp [joinSep, parsePath, ppInto_nil]
  | cons t ts ih =>
    intro hts
    obtain ⟨hne, hfree⟩ := hts t (List.mem_cons_self t ts)
    match t, ts with
    | c :: cs, [] =>
      have hc : c ≠ sep := fun e => hfree (e ▸ List.mem_cons_self c cs)
      have hcs : sep ∉ cs := fun m => hfree (List.mem_cons_of_mem _ m)
      rw [joinSep, parsePath_single hc hcs]
    | c :: cs, t2 :: ts2 =>
      have hc : c ≠ sep := fun e => hfree (e ▸ List.mem_cons_self c cs)
      have hcs : sep ∉ cs := fun m => hfree (List.mem_cons_of_mem _ m)
      rw [joinSep, List.cons_append, parsePath_cons_token hc hcs,
        ih (fun u hu => hts u (List.mem_cons_of_mem _ hu))]

/-- Statement that a string has no two adjacent separator characters. -/
def noDoubled (sep : Char) (s : List Char) : Prop :=
  List.Chain' (fun x y => ¬(x = sep ∧ y = sep)) s

theorem head?_ne_of_not_mem {sep : Char} {l : List Char} (h : sep ∉ l) :
    l.head? ≠ some sep := by
  intro e
  exact h (List.mem_of_mem_head? (by rw [e]; exact rfl))

theorem getLast?_ne_of_not_mem {sep : Char} {l : List Char} (h : sep ∉ l) :
    l.getLast? ≠ some sep := by
  intro e
  exact h (List.mem_of_mem_getLast? (by rw [e]; exact rfl))

theorem chain'_of_not_mem {sep : Char} {l : List Char} (h : sep ∉ l) :
    noDoubled sep l := by
  induction l with
  | nil => exact List.chain'_nil
  | cons a l ih =>
    rw [noDoubled, List.chain'_cons']
    refine ⟨?_, ih (fun m => h (List.mem_cons_of_mem _ m))⟩
    intro y _ hy
    exact h (hy.1 ▸ List.mem_cons_self a l)

theorem joinSep_ne_nil {sep : Char} :
    ∀ ts : List (List Char), ts ≠ [] → (∀ t ∈ ts, t ≠ []) →
      joinSep sep ts ≠ [] := by
  intro ts hne h
  match ts with
  | [t] =>
    rw [joinSep]
    exact h t (List.mem_cons_self t [])
  | t :: t2 :: ts2 =>
    rw [joinSep]
    intro e
    have := h t (List.mem_cons_self t _)
    cases t with
    | nil => exact this rfl
    | cons c cs => simp at e

/-- The separator-joined image of non-empty separator-free tokens has
no leading separator, no trailing separator, and no doubled
separator. -/
theorem joinSep_shape {sep : Char} :
    ∀ ts : List (List Char), (∀ t ∈ ts, t ≠ [] ∧ sep ∉ t) →
      (joinSep sep ts).head? ≠ some sep ∧ (joinSep sep ts).getLast? ≠ some sep ∧
        noDoubled sep (joinSep sep ts) := by
  intro ts
  induction ts with
  | nil =>
    intro _
    refine ⟨by simp [joinSep], by simp [joinSep], List.chain'_nil⟩
  | cons t ts ih =>
    intro hts
    obtain ⟨hne, hfree⟩ := hts t (List.mem_cons_self t ts)
    match ts with
    | [] =>
      rw [joinSep]
      exact ⟨head?_ne_of_not_mem hfree, getLast?_ne_of_not_mem hfree,
        chain'_of_not_mem hfree⟩
    | t2 :: ts2 =>
      have hts2 : ∀ u ∈ t2 :: ts2, u ≠ [] ∧ sep ∉ u :=
        fun u hu => hts u (List.mem_cons_of_mem _ hu)
      obtain ⟨ihh, ihl, ihc⟩ := ih hts2
      have hJne : joinSep sep (t2 :: ts2) ≠ [] :=
        joinSep_ne_nil (t2 :: ts2) (by simp) (fun u hu => (hts2 u hu).1)
      rw [joinSep]
      refine ⟨?_, ?_, ?_⟩
      · rw [List.head?_append]
        cases t with
        | nil => exact absurd rfl hne
        | cons c cs =>
          intro e
          simp at e
          exact hfree (e ▸ List.mem_cons_self c cs)
      · rw [List.getLast?_append]
        have : (sep :: joinSep sep (t2 :: ts2)).getLast? =
            (joinSep sep (t2 :: ts2)).getLast? := by
          obtain ⟨x, hx⟩ := List.exists_mem_of_ne_nil _ hJne
          match hJ : joinSep sep (t2 :: ts2) with
          | [] => exact absurd hJ hJne
          | y :: ys => simp [List.getLast?_cons_cons]
        rw [this]
        match hJ : (joinSep sep (t2 :: ts2)).getLast? with
        | none =>
          exact absurd (List.getLast?_eq_none_iff.mp hJ) hJne
        | some x =>
          have : x ≠ sep := by
            intro e
            exact ihl (e ▸ hJ)
          simp [this]
      · rw [noDoubled, List.chain'_append]
        refine ⟨chain'_of_not_mem hfree, ?_, ?_⟩
        · rw [List.chain'_cons']
          refine ⟨?_, ihc⟩
          intro y hy h2
          have hJy : (joinSep sep (t2 :: ts2)).head? = some y := Option.mem_def.mp hy
          rw [h2.2] at hJy
          exact ihh hJy
        · intro x hx y hy h2
          exact hfree (h2.1 ▸ List.mem_of_mem_getLast? hx)

theorem foldl_appendTok (sep : Char) :
    ∀ (ks : List (List Char)) (p : List Char), p ≠ [] → ks ≠ [] →
      ks.foldl (appendTok sep) p = p ++ sep :: joinSep sep ks := by
  intro ks
  induction ks with
  | nil => intro p _ h; exact absurd rfl h
  | cons k ks ih =>
    intro p hp _
    rw [List.foldl_cons]
    have hk : appendTok sep p k = p ++ sep :: k := by rw [appendTok, if_neg hp]
    match ks with
    | [] =>
      rw [List.foldl_nil, hk, joinSep]
    | k2 :: ks2 =>
      rw [hk, ih (p ++ sep :: k) (by simp) (by simp), joinSep]
      simp

/-- On non-empty tokens, the fold build_path performs coincides with
plain separator joining. -/
theorem sepFold_eq_joinSep {sep : Char} :
    ∀ ks : List (List Char), (∀ k ∈ ks, k ≠ []) →
      sepFold sep ks = joinSep sep ks := by
  intro ks hks
  match ks with
  | [] => rfl
  | [k] =>
    rw [sepFold, List.foldl_cons, List.foldl_nil, joinSep, appendTok, if_pos rfl]
  | k :: k2 :: ks2 =>
    rw [sepFold, List.foldl_cons, appendTok, if_pos rfl,
      foldl_appendTok sep (k2 :: ks2) k (hks k (List.mem_cons_self k _)) (by simp),
      joinSep]

/-- build_path computes exactly the separator-fold of the tokens that
buildToks says survive. -/
theorem buildPathAux_eq (a : PathArgs) (home : Option (List Char)) (dE : List Char → Bool) :
    ∀ (toks seen : List (List Char)) (path : List Char),
      buildPathAux a home dE toks seen path =
        match buildToks a home dE toks seen with
        | .error e => .error e
        | .ok ks => .ok (ks.foldl (appendTok a.sep) path) := by
  intro toks
  induction toks with
  | nil => intro seen path; simp [buildPathAux, buildToks]
  | cons tok rest ih =>
    intro seen path
    simp only [buildPathAux, buildToks]
    cases hexp : expOf a home tok with
    | error e => rfl
    | ok curr =>
      dsimp only
      by_cases h1 : a.force = false ∧ curr = []
      · rw [if_pos h1, if_pos h1]
      · rw [if_neg h1, if_neg h1]
        by_cases h2 : a.force = false ∧ curr.head? = some '/' ∧ dE curr = false
        · rw [if_pos h2, if_pos h2]; exact ih seen path
        · rw [if_neg h2, if_neg h2]
          by_cases h3 : a.allow_dups = false ∧ curr ∈ seen
          · rw [if_pos h3, if_pos h3]; exact ih seen path
          · rw [if_neg h3, if_neg h3]
            rw [ih _ (appendTok a.sep path curr)]
            cases hb : buildToks a home dE rest
                (if a.allow_dups = false then curr :: seen else seen) with
            | error e => rfl
            | ok ks => dsimp only; rw [List.foldl_cons]

theorem buildPath_eq (a : PathArgs) (home : Option (List Char)) (dE : List Char → Bool)
    (toks : List (List Char)) :
    buildPath a home dE toks =
      match buildToks a home dE toks [] with
      | .error e => .error e
      | .ok ks => .ok (sepFold a.sep ks) := by
  rw [buildPath, buildPathAux_eq]
  rfl

theorem expandTok_tilde_nil (home : Option (List Char)) :
    expandTok home ['~'] = .error atErrMsg := by
  rw [expandTok.eq_def]
  dsimp only
  rw [if_pos rfl]

theorem expandTok_head_ne (home : Option (List Char)) (c : Char) (cs : List Char)
    (hc : c ≠ '~') : expandTok home (c :: cs) = .ok (c :: cs) := by
  cases cs with
  | nil =>
    rw [expandTok.eq_def]
    dsimp only
    rw [if_neg hc]
  | cons c2 cs2 =>
    rw [expandTok.eq_def]
    dsimp only
    rw [if_neg hc]

theorem expandTok_second_ne (home : Option (List Char)) (c2 : Char) (cs : List Char)
    (hc2 : c2 ≠ '/') : expandTok home ('~' :: c2 :: cs) = .ok ('~' :: c2 :: cs) := by
  rw [expandTok.eq_def]
  dsimp only
  rw [if_pos rfl, if_neg hc2]

theorem expandTok_none (cs : List Char) :
    expandTok none ('~' :: '/' :: cs) = .ok ('~' :: '/' :: cs) := by
  rw [expandTok.eq_def]
  dsimp only
  rw [if_pos rfl, if_pos rfl]

theorem expandTok_some (h : List Char) (cs : List Char) :
    expandTok (some h) ('~' :: '/' :: cs) = .ok (h ++ '/' :: cs) := by
  rw [expandTok.eq_def]
  dsimp only
  rw [if_pos rfl, if_pos rfl]

/-- Expansion of a non-empty separator-free token yields a non-empty
separator-free token, provided the home string carries no separator. -/
theorem expOf_pres (a : PathArgs) (home : Option (List Char)) {tok curr : List Char}
    (hne : tok ≠ []) (hfree : a.sep ∉ tok)
    (hh : a.expand = true → ∀ h, home = some h → a.sep ∉ h)
    (hexp : expOf a home tok = .ok curr) :
    curr ≠ [] ∧ a.sep ∉ curr := by
  rw [expOf] at hexp
  by_cases hx : a.expand = true
  · rw [if_pos hx] at hexp
    match tok, hne with
    | c :: cs, _ =>
      by_cases hc : c = '~'
      · subst hc
        match cs with
        | [] =>
          rw [expandTok_tilde_nil] at hexp
          exact absurd hexp (by simp)
        | c2 :: cs2 =>
          by_cases hc2 : c2 = '/'
          · subst hc2
            match home with
            | none =>
              rw [expandTok_none] at hexp
              injection hexp with hexp
              subst hexp
              exact ⟨by simp, hfree⟩
            | some h =>
              rw [expandTok_some] at hexp
              injection hexp with hexp
              subst hexp
              refine ⟨by simp, ?_⟩
              intro hmem
              rcases List.mem_append.mp hmem with hm | hm
              · exact (hh hx h rfl) hm
              · exact hfree (List.mem_cons_of_mem _ hm)
          · rw [expandTok_second_ne home c2 cs2 hc2] at hexp
            injection hexp with hexp
            subst hexp
            exact ⟨by simp, hfree⟩
      · rw [expandTok_head_ne home c cs hc] at hexp
        injection hexp with hexp
        subst hexp
        exact ⟨by simp, hfree⟩
  · rw [if_neg hx] at hexp
    injection hexp with hexp
    subst hexp
    exact ⟨hne, hfree⟩

/-- Once a token has been through the expansion step, running the
expansion step on the result changes nothing, provided the home string
does not itself begin with tilde slash. -/
theorem expOf_idem (a : PathArgs) (home : Option (List Char)) {tok curr : List Char}
    (hne : tok ≠ [])
    (hpre : a.expand = true → ∀ h, home = some h → startsTildeSlash h = false)
    (hexp : expOf a home tok = .ok curr) :
    expOf a home curr = .ok curr := by
  by_cases hx : a.expand = true
  · rw [expOf, if_pos hx] at hexp ⊢
    match tok, hne with
    | c :: cs, _ =>
      by_cases hc : c = '~'
      · subst hc
        match cs with
        | [] =>
          rw [expandTok_tilde_nil] at hexp
          exact absurd hexp (by simp)
        | c2 :: cs2 =>
          by_cases hc2 : c2 = '/'
          · subst hc2
            match home with
            | none =>
              rw [expandTok_none] at hexp
              injection hexp with hexp
              subst hexp
              exact expandTok_none cs2
            | some h =>
              rw [expandTok_some] at hexp
              injection hexp with hexp
              subst hexp
              have hp := hpre hx h rfl
              cases h with
              | nil => exact expandTok_head_ne _ '/' cs2 (by decide)
              | cons x h2 =>
                by_cases hx2 : x = '~'
                · subst hx2
                  cases h2 with
                  | nil => exact expandTok_some ['~'] cs2
                  | cons y h3 =>
                    have hy : y ≠ '/' := by
                      intro e
                      subst e
                      simp [startsTildeSlash] at hp
                    exact expandTok_second_ne _ y (h3 ++ '/' :: cs2) hy
                · exact expandTok_head_ne _ x (h2 ++ '/' :: cs2) hx2
          · rw [expandTok_second_ne home c2 cs2 hc2] at hexp
            injection hexp with hexp
            subst hexp
            exact expandTok_second_ne home c2 cs2 hc2
      · rw [expandTok_head_ne home c cs hc] at hexp
        injection hexp with hexp
        subst hexp
        exact expandTok_head_ne home c cs hc
  · rw [expOf, if_neg hx] at hexp
    injection hexp with hexp
    subst hexp
    rw [expOf, if_neg hx]

/-- Every surviving token is the expansion image of some input token,
and absolute survivors passed the directory check. -/
theorem buildToks_mem (a : PathArgs) (home : Option (List Char)) (dE : List Char → Bool) :
    ∀ (toks seen ks : List (List Char)),
      buildToks a home dE toks seen = .ok ks →
      ∀ k ∈ ks, (∃ tok ∈ toks, expOf a home tok = .ok k) ∧
        (a.force = false → k.head? = some '/' → dE k = true) := by
  intro toks
  induction toks with
  | nil =>
    intro seen ks h k hk
    simp only [buildToks] at h
    injection h with h
    subst h
    exact absurd hk (List.not_mem_nil k)
  | cons tok rest ih =>
    intro seen ks h k hk
    simp only [buildToks] at h
    cases hexp : expOf a home tok with
    | error e => rw [hexp] at h; simp at h
    | ok curr =>
      rw [hexp] at h
      dsimp only at h
      by_cases h1 : a.force = false ∧ curr = []
      · rw [if_pos h1] at h; simp at h
      · rw [if_neg h1] at h
        by_cases h2 : a.force = false ∧ curr.head? = some '/' ∧ dE curr = false
        · rw [if_pos h2] at h
          obtain ⟨⟨tok2, htok2, hexp2⟩, hdir⟩ := ih seen ks h k hk
          exact ⟨⟨tok2, List.mem_cons_of_mem _ htok2, hexp2⟩, hdir⟩
        · rw [if_neg h2] at h
          by_cases h3 : a.allow_dups = false ∧ curr ∈ seen
          · rw [if_pos h3] at h
            obtain ⟨⟨tok2, htok2, hexp2⟩, hdir⟩ := ih seen ks h k hk
            exact ⟨⟨tok2, List.mem_cons_of_mem _ htok2, hexp2⟩, hdir⟩
          · rw [if_neg h3] at h
            cases hb : buildToks a home dE rest
                (if a.allow_dups = false then curr :: seen else seen) with
            | error e => rw [hb] at h; simp at h
            | ok ks2 =>
              rw [hb] at h
              dsimp only at h
              injection h with h
              subst h
              rcases List.mem_cons.mp hk with hkc | hk2
              · subst hkc
                refine ⟨⟨tok, List.mem_cons_self tok rest, hexp⟩, ?_⟩
                intro hf hh
                cases hdE : dE k with
                | true => rfl
                | false => exact absurd ⟨hf, hh, hdE⟩ h2
              · obtain ⟨⟨tok2, htok2, hexp2⟩, hdir⟩ := ih _ ks2 hb k hk2
                exact ⟨⟨tok2, List.mem_cons_of_mem _ htok2, hexp2⟩, hdir⟩

/-- With duplicates disallowed, the surviving tokens are pairwise
distinct and none of them was already in the seen set. -/
theorem buildToks_nodup (a : PathArgs) (home : Option (List Char)) (dE : List Char → Bool) :
    ∀ (toks seen ks : List (List Char)), a.allow_dups = false →
      buildToks a home dE toks seen = .ok ks →
      ks.Nodup ∧ ∀ k ∈ ks, k ∉ seen := by
  intro toks
  induction toks with
  | nil =>
    intro seen ks _ h
    simp only [buildToks] at h
    injection h with h
    subst h
    exact ⟨List.nodup_nil, by simp⟩
  | cons tok rest ih =>
    intro seen ks had h
    simp only [buildToks] at h
    cases hexp : expOf a home tok with
    | error e => rw [hexp] at h; simp at h
    | ok curr =>
      rw [hexp] at h
      dsimp only at h
      by_cases h1 : a.force = false ∧ curr = []
      · rw [if_pos h1] at h; simp at h
      · rw [if_neg h1] at h
        by_cases h2 : a.force = false ∧ curr.head? = some '/' ∧ dE curr = false
        · rw [if_pos h2] at h
          exact ih seen ks had h
        · rw [if_neg h2] at h
          by_cases h3 : a.allow_dups = false ∧ curr ∈ seen
          · rw [if_pos h3] at h
            exact ih seen ks had h
          · rw [if_neg h3] at h
            rw [if_pos had] at h
            cases hb : buildToks a home dE rest (curr :: seen) with
            | error e => rw [hb] at h; simp at h
            | ok ks2 =>
              rw [hb] at h
              dsimp only at h
              injection h with h
              subst h
              obtain ⟨hnd, hns⟩ := ih (curr :: seen) ks2 had hb
              have hnotks2 : curr ∉ ks2 :=
                fun hc => (hns curr hc) (List.mem_cons_self curr seen)
              have hnotseen : curr ∉ seen := fun hc => h3 ⟨had, hc⟩
              refine ⟨List.nodup_cons.mpr ⟨hnotks2, hnd⟩, ?_⟩
              intro k hk
              rcases List.mem_cons.mp hk with hkc | hk2
              · subst hkc; exact hnotseen
              · exact fun hkseen => (hns k hk2) (List.mem_cons_of_mem _ hkseen)

/-- The surviving tokens are a sublist of the pointwise expansion of
the input tokens, so order is preserved and nothing is invented. -/
theorem buildToks_sublist (a : PathArgs) (home : Option (List Char)) (dE : List Char → Bool) :
    ∀ (toks seen ks : List (List Char)),
      buildToks a home dE toks seen = .ok ks →
      ∃ cs, expAll a home toks = .ok cs ∧ ks.Sublist cs := by
  intro toks
  induction toks with
  | nil =>
    intro seen ks h
    simp only [buildToks] at h
    injection h with h
    subst h
    exact ⟨[], rfl, List.nil_sublist []⟩
  | cons tok rest ih =>
    intro seen ks h
    simp only [buildToks] at h
    cases hexp : expOf a home tok with
    | error e => rw [hexp] at h; simp at h
    | ok curr =>
      rw [hexp] at h
      dsimp only at h
      have hall : ∀ cs2, expAll a home rest = .ok cs2 →
          expAll a home (tok :: rest) = .ok (curr :: cs2) := by
        intro cs2 hcs2
        simp only [expAll]
        rw [hexp, hcs2]
      by_cases h1 : a.force = false ∧ curr = []
      · rw [if_pos h1] at h; simp at h
      · rw [if_neg h1] at h
        by_cases h2 : a.force = false ∧ curr.head? = some '/' ∧ dE curr = false
        · rw [if_pos h2] at h
          obtain ⟨cs2, hcs2, hsub⟩ := ih seen ks h
          exact ⟨curr :: cs2, hall cs2 hcs2, hsub.cons curr⟩
        · rw [if_neg h2] at h
          by_cases h3 : a.allow_dups = false ∧ curr ∈ seen
          · rw [if_pos h3] at h
            obtain ⟨cs2, hcs2, hsub⟩ := ih seen ks h
            exact ⟨curr :: cs2, hall cs2 hcs2, hsub.cons curr⟩
          · rw [if_neg h3] at h
            cases hb : buildToks a home dE rest
                (if a.allow_dups = false then curr :: seen else seen) with
            | error e => rw [hb] at h; simp at h
            | ok ks2 =>
              rw [hb] at h
              dsimp only at h
              injection h with h
              subst h
              obtain ⟨cs2, hcs2, hsub⟩ := ih _ ks2 hb
              exact ⟨curr :: cs2, hall cs2 hcs2, hsub.cons₂ curr⟩

theorem survives_true_of_not_skip {a : PathArgs} {dE : List Char → Bool}
    {c : List Char}
    (h : ¬(a.force = false ∧ c.head? = some '/' ∧ dE c = false)) :
    survives a dE c = true := by
  rw [survives]
  by_cases hc : a.force = false ∧ c.head? = some '/'
  · rw [if_pos hc]
    cases hd : dE c with
    | true => rfl
    | false => exact absurd ⟨hc.1, hc.2, hd⟩ h
  · rw [if_neg hc]

theorem survives_false_of_skip {a : PathArgs} {dE : List Char → Bool}
    {c : List Char}
    (h : a.force = false ∧ c.head? = some '/' ∧ dE c = false) :
    survives a dE c = false := by
  rw [survives, if_pos ⟨h.1, h.2.1⟩]
  exact h.2.2

/-- With duplicates disallowed, the tokens build_path keeps are
exactly the first-occurrence-wins dedup of the existence-filtered
pointwise expansion of the inputs: among expansion-equal tokens, the
first surviving one in overall input order appears and later ones
never do. -/
theorem buildToks_keepFirst (a : PathArgs) (home : Option (List Char))
    (dE : List Char → Bool) :
    ∀ (toks seen ks : List (List Char)), a.allow_dups = false →
      buildToks a home dE toks seen = .ok ks →
      ∃ cs, expAll a home toks = .ok cs ∧
        ks = keepFirstDedup (cs.filter (survives a dE)) seen := by
  intro toks
  induction toks with
  | nil =>
    intro seen ks _ h
    simp only [buildToks] at h
    injection h with h
    subst h
    exact ⟨[], rfl, rfl⟩
  | cons tok rest ih =>
    intro seen ks had h
    simp only [buildToks] at h
    cases hexp : expOf a home tok with
    | error e => rw [hexp] at h; simp at h
    | ok curr =>
      rw [hexp] at h
      dsimp only at h
      have hall : ∀ cs2, expAll a home rest = .ok cs2 →
          expAll a home (tok :: rest) = .ok (curr :: cs2) := by
        intro cs2 hcs2
        simp only [expAll]
        rw [hexp, hcs2]
      by_cases h1 : a.force = false ∧ curr = []
      · rw [if_pos h1] at h; simp at h
      · rw [if_neg h1] at h
        by_cases h2 : a.force = false ∧ curr.head? = some '/' ∧ dE curr = false
        · rw [if_pos h2] at h
          obtain ⟨cs2, hcs2, hks⟩ := ih seen ks had h
          refine ⟨curr :: cs2, hall cs2 hcs2, ?_⟩
          rw [List.filter_cons, if_neg (by rw [survives_false_of_skip h2]; simp)]
          exact hks
        · rw [if_neg h2] at h
          have hsurv : survives a dE curr = true := survives_true_of_not_skip h2
          by_cases h3 : a.allow_dups = false ∧ curr ∈ seen
          · rw [if_pos h3] at h
            obtain ⟨cs2, hcs2, hks⟩ := ih seen ks had h
            refine ⟨curr :: cs2, hall cs2 hcs2, ?_⟩
            rw [List.filter_cons, if_pos (by rw [hsurv]),
              keepFirstDedup, if_pos h3.2]
            exact hks
          · rw [if_neg h3] at h
            rw [if_pos had] at h
            cases hb : buildToks a home dE rest (curr :: seen) with
            | error e => rw [hb] at h; simp at h
            | ok ks2 =>
              rw [hb] at h
              dsimp only at h
              injection h with h
              subst h
              obtain ⟨cs2, hcs2, hks⟩ := ih (curr :: seen) ks2 had hb
              refine ⟨curr :: cs2, hall cs2 hcs2, ?_⟩
              have hnotseen : curr ∉ seen := fun hc => h3 ⟨had, hc⟩
              rw [List.filter_cons, if_pos (by rw [hsurv]),
                keepFirstDedup, if_neg hnotseen]
              rw [hks]

/-- A token list that is already fully expanded, non-empty, directory
approved, and (when deduplicating) duplicate-free and disjoint from
the seen set passes through the assembler loop unchanged. -/
theorem buildToks_keepAll (a : PathArgs) (home : Option (List Char)) (dE : List Char → Bool) :
    ∀ (ks seen : List (List Char)),
      (∀ k ∈ ks, expOf a home k = .ok k ∧ k ≠ [] ∧
        (a.force = false → k.head? = some '/' → dE k = true)) →
      (a.allow_dups = false → ks.Nodup ∧ ∀ k ∈ ks, k ∉ seen) →
      buildToks a home dE ks seen = .ok ks := by
  intro ks
  induction ks with
  | nil => intro seen _ _; rfl
  | cons k rest ih =>
    intro seen hall hdup
    obtain ⟨hexp, hne, hdir⟩ := hall k (List.mem_cons_self k rest)
    simp only [buildToks]
    rw [hexp]
    dsimp only
    have c1 : ¬(a.force = false ∧ k = []) := fun hx => hne hx.2
    rw [if_neg c1]
    have c2 : ¬(a.force = false ∧ k.head? = some '/' ∧ dE k = false) := by
      rintro ⟨hf, hh, hd⟩
      rw [hdir hf hh] at hd
      exact absurd hd (by simp)
    rw [if_neg c2]
    have c3 : ¬(a.allow_dups = false ∧ k ∈ seen) := by
      rintro ⟨had, hks⟩
      exact ((hdup had).2 k (List.mem_cons_self k rest)) hks
    rw [if_neg c3]
    have hrec : buildToks a home dE rest
        (if a.allow_dups = false then k :: seen else seen) = .ok rest := by
      apply ih
      · intro u hu; exact hall u (List.mem_cons_of_mem _ hu)
      · intro had
        obtain ⟨hnd, hseen⟩ := hdup had
        rw [if_pos had]
        refine ⟨(List.nodup_cons.mp hnd).2, ?_⟩
        intro u hu hmem
        rcases List.mem_cons.mp hmem with huk | hus
        · exact (List.nodup_cons.mp hnd).1 (huk ▸ hu)
        · exact hseen u (List.mem_cons_of_mem _ hu) hus
    rw [hrec]

/-- The assembler consults the directory predicate only on strings
that start with a slash. -/
theorem buildToks_dE_congr (a : PathArgs) (home : Option (List Char))
    (dE1 dE2 : List Char → Bool)
    (hag : ∀ s, s.head? = some '/' → dE1 s = dE2 s) :
    ∀ (toks seen : List (List Char)),
      buildToks a home dE1 toks seen = buildToks a home dE2 toks seen := by
  intro toks
  induction toks with
  | nil => intro seen; rfl
  | cons tok rest ih =>
    intro seen
    simp only [buildToks]
    cases hexp : expOf a home tok with
    | error e => rfl
    | ok curr =>
      dsimp only
      have hcond : (a.force = false ∧ curr.head? = some '/' ∧ dE1 curr = false) ↔
          (a.force = false ∧ curr.head? = some '/' ∧ dE2 curr = false) := by
        constructor
        · rintro ⟨hf, hh, hd⟩
          exact ⟨hf, hh, by rw [← hag curr hh]; exact hd⟩
        · rintro ⟨hf, hh, hd⟩
          exact ⟨hf, hh, by rw [hag curr hh]; exact hd⟩
      by_cases h1 : a.force = false ∧ curr = []
      · rw [if_pos h1, if_pos h1]
      · rw [if_neg h1, if_neg h1]
        by_cases h2 : a.force = false ∧ curr.head? = some '/' ∧ dE1 curr = false
        · rw [if_pos h2, if_pos (hcond.mp h2)]
          exact ih seen
        · rw [if_neg h2, if_neg (fun hx => h2 (hcond.mpr hx))]
          by_cases h3 : a.allow_dups = false ∧ curr ∈ seen
          · rw [if_pos h3, if_pos h3]
            exact ih seen
          · rw [if_neg h3, if_neg h3, ih]

/-- When every token expands successfully to a non-empty value, the
assembler never fails: missing directories only cause omissions. -/
theorem buildToks_ok_of_exp (a : PathArgs) (home : Option (List Char)) (dE : List Char → Bool) :
    ∀ (toks seen : List (List Char)),
      (∀ tok ∈ toks, ∃ c, expOf a home tok = .ok c ∧ c ≠ []) →
      ∃ ks, buildToks a home dE toks seen = .ok ks := by
  intro toks
  induction toks with
  | nil => intro seen _; exact ⟨[], rfl⟩
  | cons tok rest ih =>
    intro seen hall
    obtain ⟨c, hc, hcne⟩ := hall tok (List.mem_cons_self tok rest)
    simp only [buildToks]
    rw [hc]
    dsimp only
    have c1 : ¬(a.force = false ∧ c = []) := fun hx => hcne hx.2
    rw [if_neg c1]
    have hrest : ∀ tok2 ∈ rest, ∃ c2, expOf a home tok2 = .ok c2 ∧ c2 ≠ [] :=
      fun tok2 h2 => hall tok2 (List.mem_cons_of_mem _ h2)
    by_cases h2 : a.force = false ∧ c.head? = some '/' ∧ dE c = false
    · rw [if_pos h2]
      exact ih seen hrest
    · rw [if_neg h2]
      by_cases h3 : a.allow_dups = false ∧ c ∈ seen
      · rw [if_pos h3]
        exact ih seen hrest
      · rw [if_neg h3]
        obtain ⟨ks, hks⟩ := ih (if a.allow_dups = false then c :: seen else seen) hrest
        rw [hks]
        exact ⟨c :: ks, rfl⟩

theorem getOptsAux_append (xs ys : List OptEvent) :
    ∀ st, getOptsAux st (xs ++ ys) =
      match getOptsAux st xs with
      | .error e => .error e
      | .ok st2 => getOptsAux st2 ys := by
  induction xs with
  | nil => intro st; rfl
  | cons ev xs ih =>
    intro st
    simp only [List.cons_append, getOptsAux]
    cases hstep : optStep st ev with
    | error e => rfl
    | ok st2 => exact ih st2

/-- Once a separator has been accepted, every later successful step
keeps sep_found set and leaves the separator unchanged. -/
theorem getOptsAux_sep_locked :
    ∀ (l : List OptEvent) (st st2 : PathArgs × Bool), st.2 = true →
      getOptsAux st l = .ok st2 → st2.2 = true ∧ st2.1.sep = st.1.sep := by
  intro l
  induction l with
  | nil =>
    intro st st2 hsf h
    injection h with h
    subst h
    exact ⟨hsf, rfl⟩
  | cons ev rest ih =>
    intro st st2 hsf h
    simp only [getOptsAux] at h
    cases hstep : optStep st ev with
    | error e => rw [hstep] at h; simp at h
    | ok st1 =>
      rw [hstep] at h
      dsimp only at h
      have hkeep : st1.2 = true ∧ st1.1.sep = st.1.sep := by
        cases ev with
        | d =>
          simp only [optStep] at hstep
          injection hstep with e
          subst e
          exact ⟨hsf, rfl⟩
        | f =>
          simp only [optStep] at hstep
          injection hstep with e
          subst e
          exact ⟨hsf, rfl⟩
        | h =>
          simp only [optStep] at hstep
          injection hstep with e
          subst e
          exact ⟨hsf, rfl⟩
        | x =>
          simp only [optStep] at hstep
          injection hstep with e
          subst e
          exact ⟨hsf, rfl⟩
        | s arg =>
          simp only [optStep] at hstep
          match arg with
          | [] => simp at hstep
          | [c] =>
            dsimp only at hstep
            by_cases hcond : st.2 = true ∧ c ≠ st.1.sep
            · rw [if_pos hcond] at hstep; simp at hstep
            · rw [if_neg hcond] at hstep
              injection hstep with e
              subst e
              refine ⟨rfl, ?_⟩
              by_cases hc : c = st.1.sep
              · exact hc
              · exact absurd ⟨hsf, hc⟩ hcond
          | c :: c2 :: cs => simp at hstep
        | missingArg c => simp only [optStep] at hstep; simp at hstep
        | invalid c => simp only [optStep] at hstep; simp at hstep
      obtain ⟨h1, h2⟩ := ih st1 st2 hkeep.1 h
      exact ⟨h1, h2.trans hkeep.2⟩

theorem optStep_help_mono {st st1 : PathArgs × Bool} {ev : OptEvent}
    (hstep : optStep st ev = .ok st1) (hh : st.1.help = true) : st1.1.help = true := by
  cases ev with
  | d => simp only [optStep] at hstep; injection hstep with e; subst e; exact hh
  | f => simp only [optStep] at hstep; injection hstep with e; subst e; exact hh
  | h => simp only [optStep] at hstep; injection hstep with e; subst e; rfl
  | x => simp only [optStep] at hstep; injection hstep with e; subst e; exact hh
  | s arg =>
    simp only [optStep] at hstep
    match arg with
    | [] => simp at hstep
    | [c] =>
      dsimp only at hstep
      by_cases hcond : st.2 = true ∧ c ≠ st.1.sep
      · rw [if_pos hcond] at hstep; simp at hstep
      · rw [if_neg hcond] at hstep
        injection hstep with e
        subst e
        exact hh
    | c :: c2 :: cs => simp at hstep
  | missingArg c => simp only [optStep] at hstep; simp at hstep
  | invalid c => simp only [optStep] at hstep; simp at hstep

theorem getOptsAux_help_mono :
    ∀ (l : List OptEvent) (st st2 : PathArgs × Bool), st.1.help = true →
      getOptsAux st l = .ok st2 → st2.1.help = true := by
  intro l
  induction l with
  | nil =>
    intro st st2 hh h
    injection h with h
    subst h
    exact hh
  | cons ev rest ih =>
    intro st st2 hh h
    simp only [getOptsAux] at h
    cases hstep : optStep st ev with
    | error e => rw [hstep] at h; simp at h
    | ok st1 =>
      rw [hstep] at h
      dsimp only at h
      exact ih st1 st2 (optStep_help_mono hstep hh) h

/-- If the option sequence contains h and option processing succeeds,
the help flag is set in the result. -/
theorem getOptsAux_help_of_mem :
    ∀ (l : List OptEvent) (st st2 : PathArgs × Bool), OptEvent.h ∈ l →
      getOptsAux st l = .ok st2 → st2.1.help = true := by
  intro l
  induction l with
  | nil => intro st st2 hm; exact absurd hm (List.not_mem_nil _)
  | cons ev rest ih =>
    intro st st2 hm h
    simp only [getOptsAux] at h
    cases hstep : optStep st ev with
    | error e => rw [hstep] at h; simp at h
    | ok st1 =>
      rw [hstep] at h
      dsimp only at h
      rcases List.mem_cons.mp hm with he | hm2
      · subst he
        simp only [optStep] at hstep
        injection hstep with e
        subst e
        exact getOptsAux_help_mono rest _ st2 rfl h
      · exact ih st1 st2 hm2 h

/-- Two s options with distinct single-character arguments always make
get_opts fail, wherever they sit in the option sequence. -/
theorem getOptsAux_conflict (c1 c2 : Char) (hne : c1 ≠ c2)
    (l1 l2 l3 : List OptEvent) :
    ∀ st, ∃ msg,
      getOptsAux st (l1 ++ OptEvent.s [c1] :: (l2 ++ OptEvent.s [c2] :: l3)) =
        .error msg := by
  intro st
  rw [getOptsAux_append]
  cases hst1 : getOptsAux st l1 with
  | error e => exact ⟨e, rfl⟩
  | ok st1 =>
    dsimp only
    simp only [getOptsAux]
    simp only [optStep]
    by_cases hcond : st1.2 = true ∧ c1 ≠ st1.1.sep
    · rw [if_pos hcond]
      exact ⟨_, rfl⟩
    · rw [if_neg hcond]
      dsimp only
      rw [getOptsAux_append]
      cases hst2 : getOptsAux (⟨c1, st1.1.allow_dups, st1.1.force, st1.1.help, st1.1.expand⟩,
          true) l2 with
      | error e => exact ⟨e, rfl⟩
      | ok st3 =>
        dsimp only
        obtain ⟨hsf3, hsep3⟩ := getOptsAux_sep_locked l2 _ st3 rfl hst2
        simp only [getOptsAux]
        simp only [optStep]
        have hcond2 : st3.2 = true ∧ c2 ≠ st3.1.sep := by
          refine ⟨hsf3, ?_⟩
          rw [hsep3]
          exact fun e => hne e.symm
        rw [if_pos hcond2]
        exact ⟨_, rfl⟩

theorem toksOf_mem (sep : Char) (args : List (List Char)) :
    ∀ t ∈ toksOf sep args, t ≠ [] ∧ sep ∉ t := by
  rw [toksOf]
  suffices h : ∀ (vec : List (List Char)), (∀ t ∈ vec, t ≠ [] ∧ sep ∉ t) →
      ∀ t ∈ args.foldl (fun v s => parsePathInto sep s v) vec, t ≠ [] ∧ sep ∉ t by
    exact h [] (by simp)
  induction args with
  | nil => intro vec hvec t ht; exact hvec t ht
  | cons s args ih =>
    intro vec hvec t ht
    rw [List.foldl_cons] at ht
    refine ih (parsePathInto sep s vec) ?_ t ht
    intro u hu
    rw [ppInto_append] at hu
    rcases List.mem_append.mp hu with hu1 | hu2
    · exact hvec u hu1
    · exact parsePath_tokens sep s.length s le_rfl u hu2

/-- C1: the claim says a bare tilde token with expansion enabled is
carried through unchanged and never raises an error.  The code instead
evaluates curr_path.at(1) on the one-character token, so
std::string::at throws out_of_range and build_path aborts: whenever
the token list contains the bare tilde and expand is set, build_path
returns an error instead of a path. -/
theorem c1_bare_tilde_error (a : PathArgs) (home : Option (List Char))
    (dE : List Char → Bool) (toks : List (List Char))
    (hx : a.expand = true) (hmem : ['~'] ∈ toks) :
    ∃ e, buildPath a home dE toks = .error e := by
  rw [buildPath]
  suffices hgen : ∀ (toks2 seen : List (List Char)) (path : List Char), ['~'] ∈ toks2 →
      ∃ e, buildPathAux a home dE toks2 seen path = .error e by
    exact hgen toks [] [] hmem
  intro toks2
  induction toks2 with
  | nil => intro seen path hm; exact absurd hm (List.not_mem_nil _)
  | cons tok rest ih =>
    intro seen path hm
    simp only [buildPathAux]
    rcases List.mem_cons.mp hm with he | hm2
    · subst he
      have htil : expOf a home ['~'] = .error atErrMsg := by
        rw [expOf, if_pos hx, expandTok_tilde_nil]
      rw [htil]
      exact ⟨atErrMsg, rfl⟩
    · cases hexp : expOf a home tok with
      | error e => exact ⟨e, rfl⟩
      | ok curr =>
        dsimp only
        by_cases h1 : a.force = false ∧ curr = []
        · rw [if_pos h1]
          exact ⟨atErrMsg, rfl⟩
        · rw [if_neg h1]
          by_cases h2 : a.force = false ∧ curr.head? = some '/' ∧ dE curr = false
          · rw [if_pos h2]
            exact ih seen path hm2
          · rw [if_neg h2]
            by_cases h3 : a.allow_dups = false ∧ curr ∈ seen
            · rw [if_pos h3]
              exact ih seen path hm2
            · rw [if_neg h3]
              exact ih _ _ hm2

theorem c1_bare_tilde_error_witness :
    ∃ e, buildPath ⟨':', false, false, false, true⟩ none (fun _ => false)
      [['~']] = .error e :=
  c1_bare_tilde_error ⟨':', false, false, false, true⟩ none (fun _ => false)
    [['~']] rfl (by simp)

/-- C2 counterexample: the claim as stated fails when the environment
supplies a HOME value containing the separator.  With HOME = ":" and
expansion enabled, the argument string tilde slash x assembles to the
output colon slash x, which begins with the separator. -/
theorem c2_counterexample :
    buildPath ⟨':', false, false, false, true⟩ (some [':']) (fun _ => false)
        (toksOf ':' [['~', '/', 'x']]) = .ok [':', '/', 'x'] ∧
    ([':', '/', 'x'] : List Char).head? = some ':' := by
  refine ⟨?_, rfl⟩
  have htoks : toksOf ':' [['~', '/', 'x']] = [['~', '/', 'x']] := by
    simp [toksOf, parsePathInto]
  rw [htoks]
  decide

/-- C2 (amended): for every list of input argument strings and every
configuration, provided that when expansion is enabled the home
directory value contains no separator character, the assembled output
has no leading separator, no trailing separator, and no two adjacent
separators. -/
theorem c2_separator_invariant (a : PathArgs) (home : Option (List Char))
    (dE : List Char → Bool) (args : List (List Char)) (out : List Char)
    (hh : a.expand = true → ∀ h, home = some h → a.sep ∉ h)
    (hok : buildPath a home dE (toksOf a.sep args) = .ok out) :
    out.head? ≠ some a.sep ∧ out.getLast? ≠ some a.sep ∧ noDoubled a.sep out := by
  rw [buildPath_eq] at hok
  cases hb : buildToks a home dE (toksOf a.sep args) [] with
  | error e => rw [hb] at hok; simp at hok
  | ok ks =>
    rw [hb] at hok
    dsimp only at hok
    injection hok with hok
    subst hok
    have hks : ∀ k ∈ ks, k ≠ [] ∧ a.sep ∉ k := by
      intro k hk
      obtain ⟨⟨tok, htok, hexp⟩, _⟩ := buildToks_mem a home dE _ [] ks hb k hk
      obtain ⟨hne, hfree⟩ := toksOf_mem a.sep args tok htok
      exact expOf_pres a home hne hfree hh hexp
    rw [sepFold_eq_joinSep ks (fun k hk => (hks k hk).1)]
    exact joinSep_shape ks hks

theorem c2_separator_invariant_witness :
    (['a', ':', 'b'] : List Char).head? ≠ some ':' ∧
    (['a', ':', 'b'] : List Char).getLast? ≠ some ':' ∧
    noDoubled ':' ['a', ':', 'b'] := by
  refine c2_separator_invariant ⟨':', false, true, false, false⟩ none (fun _ => false)
    [['a', ':', ':', 'b']] ['a', ':', 'b'] (fun hx => absurd hx (by decide)) ?_
  have htoks : toksOf ':' [['a', ':', ':', 'b']] = [['a'], ['b']] := by
    simp [toksOf, parsePathInto]
  rw [buildPath, htoks]
  decide

/-- C3 counterexample: the claim as stated fails when the environment
supplies a HOME value that itself begins with tilde slash.  With
HOME = the three characters tilde slash h and expansion enabled (and
force set so the filesystem is not consulted), the token tilde slash b
assembles to tilde slash h slash b; splitting that output and
reassembling expands again and yields a longer, different string. -/
theorem c3_counterexample :
    buildPath ⟨':', false, true, false, true⟩ (some ['~', '/', 'h']) (fun _ => false)
        [['~', '/', 'b']] = .ok ['~', '/', 'h', '/', 'b'] ∧
    buildPath ⟨':', false, true, false, true⟩ (some ['~', '/', 'h']) (fun _ => false)
        (parsePath ':' ['~', '/', 'h', '/', 'b']) =
      .ok ['~', '/', 'h', '/', 'h', '/', 'b'] ∧
    (['~', '/', 'h', '/', 'h', '/', 'b'] : List Char) ≠ ['~', '/', 'h', '/', 'b'] := by
  refine ⟨by decide, ?_, by decide⟩
  have hp : parsePath ':' ['~', '/', 'h', '/', 'b'] = [['~', '/', 'h', '/', 'b']] := by
    simp [parsePath, parsePathInto]
  rw [hp]
  decide

/-- C3 (amended): for every configuration and every token sequence as
the tokenizer produces it (tokens non-empty and separator-free),
provided that when expansion is enabled the home directory value
contains no separator and does not begin with tilde slash, splitting
the assembled output back into tokens with the same separator and
reassembling yields the same output string. -/
theorem c3_idempotent (a : PathArgs) (home : Option (List Char)) (dE : List Char → Bool)
    (toks : List (List Char)) (out : List Char)
    (htoks : ∀ t ∈ toks, t ≠ [] ∧ a.sep ∉ t)
    (hhome : a.expand = true → ∀ h, home = some h →
      a.sep ∉ h ∧ startsTildeSlash h = false)
    (hok : buildPath a home dE toks = .ok out) :
    buildPath a home dE (parsePath a.sep out) = .ok out := by
  have hsep : a.expand = true → ∀ h, home = some h → a.sep ∉ h :=
    fun hx h hm => (hhome hx h hm).1
  have hpre : a.expand = true → ∀ h, home = some h → startsTildeSlash h = false :=
    fun hx h hm => (hhome hx h hm).2
  rw [buildPath_eq] at hok
  cases hb : buildToks a home dE toks [] with
  | error e => rw [hb] at hok; simp at hok
  | ok ks =>
    rw [hb] at hok
    dsimp only at hok
    injection hok with hok
    subst hok
    have hmemfacts := buildToks_mem a home dE toks [] ks hb
    have hksgood : ∀ k ∈ ks, k ≠ [] ∧ a.sep ∉ k := by
      intro k hk
      obtain ⟨⟨tok, htok, hexp⟩, _⟩ := hmemfacts k hk
      obtain ⟨hne, hfree⟩ := htoks tok htok
      exact expOf_pres a home hne hfree hsep hexp
    have hjoin : sepFold a.sep ks = joinSep a.sep ks :=
      sepFold_eq_joinSep ks (fun k hk => (hksgood k hk).1)
    rw [hjoin, parsePath_joinSep ks hksgood]
    have hrun2 : buildToks a home dE ks [] = .ok ks := by
      apply buildToks_keepAll
      · intro k hk
        obtain ⟨⟨tok, htok, hexp⟩, hdir⟩ := hmemfacts k hk
        exact ⟨expOf_idem a home (htoks tok htok).1 hpre hexp, (hksgood k hk).1, hdir⟩
      · intro had
        obtain ⟨hnd, _⟩ := buildToks_nodup a home dE toks [] ks had hb
        exact ⟨hnd, fun k _ => List.not_mem_nil k⟩
    rw [buildPath_eq, hrun2]
    dsimp only
    rw [hjoin]

theorem c3_idempotent_witness :
    buildPath ⟨':', false, true, false, false⟩ none (fun _ => false)
      (parsePath ':' ['a', ':', 'b']) = .ok ['a', ':', 'b'] :=
  c3_idempotent ⟨':', false, true, false, false⟩ none (fun _ => false)
    [['a'], ['b']] ['a', ':', 'b'] (by decide) (fun hx => absurd hx (by decide))
    (by decide)

/-- C4: with duplicates disallowed, the surviving entries are exactly
the first-occurrence-wins dedup of the existence-filtered pointwise
post-expansion values: of any two tokens that are equal after home
expansion, only the first in overall input order can appear in the
output, the later one never does, and the comparison happens after
expansion.  The entries are in addition pairwise distinct and an
order-preserving sublist of the post-expansion values. -/
theorem c4_dedup_first_only (a : PathArgs) (home : Option (List Char))
    (dE : List Char → Bool) (toks ks : List (List Char))
    (had : a.allow_dups = false) (hok : buildToks a home dE toks [] = .ok ks) :
    ∃ cs, expAll a home toks = .ok cs ∧
      ks = keepFirstDedup (cs.filter (survives a dE)) [] ∧
      ks.Nodup ∧ ks.Sublist cs := by
  obtain ⟨cs, hcs, hks⟩ := buildToks_keepFirst a home dE toks [] ks had hok
  obtain ⟨cs2, hcs2, hsub⟩ := buildToks_sublist a home dE toks [] ks hok
  rw [hcs] at hcs2
  injection hcs2 with hcs2
  subst hcs2
  exact ⟨cs, hcs, hks, (buildToks_nodup a home dE toks [] ks had hok).1, hsub⟩

theorem c4_dedup_first_only_witness :
    ∃ cs, expAll ⟨':', false, true, false, true⟩ (some ['/', 'h'])
        [['~', '/', 'b'], ['/', 'h', '/', 'b']] = .ok cs ∧
      ([['/', 'h', '/', 'b']] : List (List Char)) =
        keepFirstDedup
          (cs.filter (survives ⟨':', false, true, false, true⟩ (fun _ => false))) [] ∧
      ([['/', 'h', '/', 'b']] : List (List Char)).Nodup ∧
      ([['/', 'h', '/', 'b']] : List (List Char)).Sublist cs :=
  c4_dedup_first_only ⟨':', false, true, false, true⟩ (some ['/', 'h'])
    (fun _ => false) [['~', '/', 'b'], ['/', 'h', '/', 'b']] [['/', 'h', '/', 'b']]
    rfl (by decide)

/-- C5: with force disabled every surviving entry that starts with a
slash was approved by the directory predicate; the assembler consults
the predicate only on slash-initial strings, so relative tokens are
never existence-checked; and existence failures never produce errors:
whenever every token expands to a non-empty value the assembler
succeeds, whatever the predicate answers. -/
theorem c5_existence_filter :
    (∀ (a : PathArgs) (home : Option (List Char)) (dE : List Char → Bool)
        (toks seen ks : List (List Char)), a.force = false →
        buildToks a home dE toks seen = .ok ks →
        ∀ k ∈ ks, k.head? = some '/' → dE k = true) ∧
    (∀ (a : PathArgs) (home : Option (List Char)) (dE1 dE2 : List Char → Bool),
        (∀ s, s.head? = some '/' → dE1 s = dE2 s) →
        ∀ toks seen, buildToks a home dE1 toks seen = buildToks a home dE2 toks seen) ∧
    (∀ (a : PathArgs) (home : Option (List Char)) (dE : List Char → Bool)
        (toks seen : List (List Char)),
        (∀ tok ∈ toks, ∃ c, expOf a home tok = .ok c ∧ c ≠ []) →
        ∃ ks, buildToks a home dE toks seen = .ok ks) := by
  refine ⟨?_, ?_, ?_⟩
  · intro a home dE toks seen ks hf hok k hk hhead
    exact (buildToks_mem a home dE toks seen ks hok k hk).2 hf hhead
  · intro a home dE1 dE2 hag toks seen
    exact buildToks_dE_congr a home dE1 dE2 hag toks seen
  · intro a home dE toks seen hall
    exact buildToks_ok_of_exp a home dE toks seen hall

theorem c5_existence_filter_witness :
    ∀ k ∈ ([['/', 'o'], ['r']] : List (List Char)), k.head? = some '/' →
      (fun s => s == ['/', 'o'] : List Char → Bool) k = true :=
  c5_existence_filter.1 ⟨':', false, false, false, false⟩ none
    (fun s => s == ['/', 'o']) [['/', 'o'], ['/', 'n'], ['r']] [] [['/', 'o'], ['r']]
    rfl (by decide)

/-- C6: parse_path produces no empty token for any input and
separator, an empty or null input leaves the vector unchanged, and the
function only appends to the caller-supplied vector. -/
theorem c6_tokenizer_contract (sep : Char) (s : List Char) (vec : List (List Char)) :
    parsePathInto sep s vec = vec ++ parsePathInto sep s [] ∧
    (∀ t ∈ parsePathInto sep s [], t ≠ []) ∧
    parsePathInto sep [] vec = vec ∧
    parsePathOpt sep none vec = vec := by
  refine ⟨ppInto_append sep s vec, ?_, ppInto_nil sep vec, rfl⟩
  intro t ht
  exact (parsePath_tokens sep s.length s le_rfl t ht).1

theorem c6_tokenizer_contract_witness :
    (['a'] ∈ parsePathInto ':' [':', 'a', ':', ':', 'b', ':'] []) ∧ (['a'] : List Char) ≠ [] := by
  refine ⟨?_, ?_⟩
  · simp [parsePathInto]
  · exact (c6_tokenizer_contract ':' [':', 'a', ':', ':', 'b', ':'] []).2.1 ['a']
      (by simp [parsePathInto])

/-- C7: with the HOME lookup returning nothing, a token beginning with
tilde slash passes the expansion step unchanged and without error,
whether or not expansion is enabled. -/
theorem c7_home_unset_literal (a : PathArgs) (cs : List Char) :
    expOf a none ('~' :: '/' :: cs) = .ok ('~' :: '/' :: cs) := by
  rw [expOf]
  by_cases hx : a.expand = true
  · rw [if_pos hx]
    exact expandTok_none cs
  · rw [if_neg hx]

/-- C8: whenever the option sequence carries two s options with
different single-character arguments, get_opts reports an error before
any tokenization or assembly, and the run exits with code 1 writing
nothing to standard output. -/
theorem c8_conflicting_sep (name : List Char) (evs : List OptEvent)
    (posArgs : List (List Char)) (home : Option (List Char)) (dE : List Char → Bool)
    (l1 l2 l3 : List OptEvent) (c1 c2 : Char) (hne : c1 ≠ c2)
    (hevs : evs = l1 ++ OptEvent.s [c1] :: (l2 ++ OptEvent.s [c2] :: l3)) :
    (∃ msg, getOpts evs = .error msg) ∧ mainRun name evs posArgs home dE = ⟨1, []⟩ := by
  subst hevs
  obtain ⟨msg, hmsg⟩ := getOptsAux_conflict c1 c2 hne l1 l2 l3 (defaultArgs, false)
  have hget : getOpts (l1 ++ OptEvent.s [c1] :: (l2 ++ OptEvent.s [c2] :: l3)) =
      .error msg := by
    rw [getOpts, hmsg]
  exact ⟨⟨msg, hget⟩, by rw [mainRun, hget]⟩

theorem c8_conflicting_sep_witness :
    (∃ msg, getOpts [OptEvent.s [':'], OptEvent.s [';']] = .error msg) ∧
    mainRun ['c'] [OptEvent.s [':'], OptEvent.s [';']] [] none (fun _ => false) =
      ⟨1, []⟩ :=
  c8_conflicting_sep ['c'] [OptEvent.s [':'], OptEvent.s [';']] [] none
    (fun _ => false) [] [] [] ':' ';' (by decide) rfl

/-- C9 counterexample: the claim as stated fails because get_opts
processes the whole option sequence before main looks at the help
flag: an invalid option anywhere makes the run exit 1 with nothing on
standard output even though h is among the arguments. -/
theorem c9_counterexample :
    OptEvent.h ∈ [OptEvent.invalid 'z', OptEvent.h] ∧
    mainRun ['c'] [OptEvent.invalid 'z', OptEvent.h] [] none (fun _ => false) =
      ⟨1, []⟩ ∧
    (mainRun ['c'] [OptEvent.invalid 'z', OptEvent.h] [] none
      (fun _ => false)).exitCode ≠ 0 := by
  refine ⟨by simp, rfl, by decide⟩

/-- C9 (amended): for every invocation whose option sequence parses
without a configuration error and includes h, the program prints
exactly the help text and exits 0, never touching the positional path
arguments. -/
theorem c9_help_shown (name : List Char) (evs : List OptEvent)
    (posArgs : List (List Char)) (home : Option (List Char)) (dE : List Char → Bool)
    (pa : PathArgs) (hok : getOpts evs = .ok pa) (hmem : OptEvent.h ∈ evs) :
    mainRun name evs posArgs home dE = ⟨0, showHelp name⟩ := by
  have hhelp : pa.help = true := by
    rw [getOpts] at hok
    cases hst : getOptsAux (defaultArgs, false) evs with
    | error e => rw [hst] at hok; simp at hok
    | ok st =>
      rw [hst] at hok
      dsimp only at hok
      injection hok with hok
      subst hok
      exact getOptsAux_help_of_mem evs _ st hmem hst
  rw [mainRun, hok]
  dsimp only
  rw [if_pos hhelp]

theorem c9_help_shown_witness :
    mainRun ['c'] [OptEvent.h] [] none (fun _ => false) = ⟨0, showHelp ['c']⟩ :=
  c9_help_shown ['c'] [OptEvent.h] [] none (fun _ => false)
    ⟨':', false, false, true, false⟩ rfl (by simp)

/-- C10: with successfully parsed options, no help request, and no
positional arguments, the run exits 0 and writes exactly one newline
to standard output. -/
theorem c10_no_args_newline (name : List Char) (evs : List OptEvent)
    (home : Option (List Char)) (dE : List Char → Bool) (pa : PathArgs)
    (hok : getOpts evs = .ok pa) (hnh : pa.help = false) :
    mainRun name evs [] home dE = ⟨0, ['\n']⟩ := by
  rw [mainRun, hok]
  dsimp only
  rw [if_neg (by rw [hnh]; exact Bool.false_ne_true)]
  rfl

theorem c10_no_args_newline_witness :
    mainRun ['c'] [] [] none (fun _ => false) = ⟨0, ['\n']⟩ :=
  c10_no_args_newline ['c'] [] none (fun _ => false) defaultArgs rfl rfl
